import Mathlib

/-!
# Sealpack — formal model and verification of the specification claims

Shallow embedding of the sealpack repository's core algorithms
(envelope codec, signature ledger, verifier, payload unsealing,
compression selection, image rollback) and proofs about them.

Byte streams are modelled as `List Nat` whose elements are byte values;
Go `map[string]string` is modelled as an association list with unique
keys; fallible Go functions return `Option`/`Except`.
-/

set_option maxHeartbeats 1000000

namespace Sealpack

/-! ## Envelope codec — `src/common/archive.go`

`EnvelopeMagicBytes = "\xDBIPC"`, the config byte packs the compression
index in bits 7..5 and the hash-algorithm code in bits 4..0, the payload
length is a 64-bit little-endian integer, and the trailer is a sequence
of `(len8, key)` records where `len8` is the key length divided by 8. -/

/-- The 4 magic bytes `"\xDBIPC"` (`EnvelopeMagicBytes` in `archive.go`). -/
def EnvelopeMagicBytes : List Nat := [0xDB, 0x49, 0x50, 0x43]

/-- The envelope, as parsed/serialised by `archive.go` (`Envelope` struct).
`PayloadLen` is an `int64` in Go; all reachable values are non-negative so
it is a `Nat` here. The payload reader/writer handles are not part of the
codec state. -/
structure Envelope where
  HashAlgorithm : Nat
  CompressionAlgo : Nat
  PayloadLen : Nat
  ReceiverKeys : List (List Nat)
deriving Repr, DecidableEq

/-- Go `binary.LittleEndian.PutUint64`: 8 little-endian bytes of `n % 2^64`. -/
def putUint64LE (n : Nat) : List Nat :=
  [n % 256, n / 256 % 256, n / 256 ^ 2 % 256, n / 256 ^ 3 % 256,
   n / 256 ^ 4 % 256, n / 256 ^ 5 % 256, n / 256 ^ 6 % 256, n / 256 ^ 7 % 256]

/-- Go `binary.LittleEndian.Uint64` on an 8-byte buffer. -/
def readUint64LE (b : List Nat) : Nat :=
  match b with
  | b0 :: b1 :: b2 :: b3 :: b4 :: b5 :: b6 :: b7 :: _ =>
    b0 + 256 * b1 + 256 ^ 2 * b2 + 256 ^ 3 * b3 +
      256 ^ 4 * b4 + 256 ^ 5 * b5 + 256 ^ 6 * b6 + 256 ^ 7 * b7
  | _ => 0

/-- The config byte written by `Envelope.WriteHeader`:
`(e.CompressionAlgo << 5) | uint8(e.HashAlgorithm)`, computed in `uint8`. -/
def configByte (e : Envelope) : Nat :=
  (e.CompressionAlgo * 32 % 256) ||| (e.HashAlgorithm % 256)

/-- Function `Envelope.WriteHeader`: magic bytes, config byte, 8-byte little-endian
payload length (13 bytes in total). -/
def writeHeader (e : Envelope) : List Nat :=
  EnvelopeMagicBytes ++ [configByte e] ++ putUint64LE e.PayloadLen

/-- Function `Envelope.WriteKeys`: for each receiver key, one length byte
`uint8(len(key)/8)` followed by the key bytes; fails with
"invalid key length" if a key's length is not a multiple of 8. -/
def writeKeys : List (List Nat) → Option (List Nat)
  | [] => some []
  | k :: rest =>
    if k.length % 8 ≠ 0 then none
    else (writeKeys rest).map (fun tail => (k.length / 8 % 256) :: (k ++ tail))

/-- The trailer loop of `ParseEnvelope`: repeatedly read one length byte `k`
and then `k*8` key bytes (`io.CopyN`, which fails on a short read);
stop at end of input. -/
def parseKeys : List Nat → Option (List (List Nat))
  | [] => some []
  | k :: rest =>
    if k * 8 ≤ rest.length then
      (parseKeys (rest.drop (k * 8))).map (fun ks => rest.take (k * 8) :: ks)
    else none
termination_by l => l.length
decreasing_by
  simp only [List.length_drop, List.length_cons]
  omega

/-- Function `ParseEnvelope`: check the magic prefix, split the config byte into the
hash code (`config & 0b00011111`) and the compression index (`config >> 5`),
read the 64-bit little-endian payload length, skip the payload
(`rd.Discard`, which fails if the stream is short or the length does not
fit in `int64`), then parse the key trailer until end of input. -/
def parseEnvelope (input : List Nat) : Option Envelope :=
  if input.take 4 ≠ EnvelopeMagicBytes then none
  else
    match input.drop 4 with
    | [] => none
    | config :: rest =>
      if rest.length < 8 then none
      else
        let payloadLen := readUint64LE (rest.take 8)
        let body := rest.drop 8
        if payloadLen < 2 ^ 63 ∧ payloadLen ≤ body.length then
          (parseKeys (body.drop payloadLen)).map (fun ks =>
            { HashAlgorithm := config % 32
              CompressionAlgo := config / 32
              PayloadLen := payloadLen
              ReceiverKeys := ks })
        else none

/-! ### Envelope codec lemmas -/

theorem readUint64LE_putUint64LE (n : Nat) :
    readUint64LE (putUint64LE n) = n % 2 ^ 64 := by
  simp only [putUint64LE, readUint64LE]
  omega

theorem lor_mul32_split (c h : Nat) (hc : c < 8) (hh : h < 32) :
    (c * 32 % 256 ||| h % 256) % 32 = h ∧ (c * 32 % 256 ||| h % 256) / 32 = c := by
  interval_cases c <;> interval_cases h <;> decide

theorem configByte_split (e : Envelope)
    (hh : e.HashAlgorithm < 32) (hc : e.CompressionAlgo < 8) :
    configByte e % 32 = e.HashAlgorithm ∧ configByte e / 32 = e.CompressionAlgo :=
  lor_mul32_split e.CompressionAlgo e.HashAlgorithm hc hh

theorem parseKeys_writeKeys (keys : List (List Nat)) (kb : List Nat)
    (hval : ∀ k ∈ keys, k.length % 8 = 0 ∧ k.length ≤ 255 * 8)
    (hw : writeKeys keys = some kb) :
    parseKeys kb = some keys := by
  induction keys generalizing kb with
  | nil =>
    simp only [writeKeys, Option.some.injEq] at hw
    subst hw
    simp [parseKeys]
  | cons k rest ih =>
    obtain ⟨hk8, hklen⟩ := hval k (by simp)
    rw [writeKeys, if_neg (by omega)] at hw
    obtain ⟨tail, hwtail, hkb⟩ := Option.map_eq_some'.mp hw
    subst hkb
    have hdiv : k.length / 8 % 256 = k.length / 8 := Nat.mod_eq_of_lt (by omega)
    have hmul : k.length / 8 * 8 = k.length := Nat.div_mul_cancel (Nat.dvd_of_mod_eq_zero hk8)
    rw [parseKeys]
    rw [if_pos (by simp [hdiv, hmul])]
    rw [hdiv, hmul]
    rw [List.take_left, List.drop_left]
    rw [ih tail (fun x hx => hval x (by simp [hx])) hwtail]
    rfl

/-- C1. Envelope codec round-trip: for every valid envelope (hash code in 5
bits, compression index in 3 bits, payload length equal to the payload's
byte count and representable as `int64`, each receiver key of 8-multiple
length at most `255*8`), parsing `WriteHeader`'s output followed by the
payload bytes followed by `WriteKeys`'s output recovers the same hash
algorithm, compression index, payload length, and receiver keys in order. -/
theorem envelope_roundtrip (e : Envelope) (payload kb : List Nat)
    (hh : e.HashAlgorithm < 32) (hc : e.CompressionAlgo < 8)
    (hlen : e.PayloadLen = payload.length) (hlen63 : payload.length < 2 ^ 63)
    (hkeys : ∀ k ∈ e.ReceiverKeys, k.length % 8 = 0 ∧ k.length ≤ 255 * 8)
    (hw : writeKeys e.ReceiverKeys = some kb) :
    parseEnvelope (writeHeader e ++ payload ++ kb) = some e := by
  obtain ⟨h, c, n, keys⟩ := e
  have hn : n = payload.length := hlen
  subst hn
  rw [parseEnvelope]
  rw [writeHeader]
  simp only [EnvelopeMagicBytes, putUint64LE, configByte]
  simp only [List.cons_append, List.nil_append, List.append_assoc]
  rw [if_neg (by simp)]
  simp only [List.drop_succ_cons, List.drop_zero]
  rw [if_neg (by simp)]
  simp only [List.take_succ_cons, List.take_zero, List.drop_succ_cons, List.drop_zero]
  have hread : readUint64LE [payload.length % 256, payload.length / 256 % 256,
      payload.length / 256 ^ 2 % 256, payload.length / 256 ^ 3 % 256,
      payload.length / 256 ^ 4 % 256, payload.length / 256 ^ 5 % 256,
      payload.length / 256 ^ 6 % 256, payload.length / 256 ^ 7 % 256] =
      payload.length := by
    show readUint64LE (putUint64LE payload.length) = payload.length
    rw [readUint64LE_putUint64LE]
    exact Nat.mod_eq_of_lt (by omega)
  rw [hread]
  rw [if_pos ⟨hlen63, by simp⟩]
  rw [List.drop_left]
  rw [parseKeys_writeKeys keys kb hkeys hw]
  simp only [Option.map_some', Option.some.injEq, Envelope.mk.injEq]
  obtain ⟨hsplit1, hsplit2⟩ := lor_mul32_split c h hc hh
  exact ⟨hsplit1, hsplit2, trivial, trivial⟩

/-- Witness for `envelope_roundtrip` at a concrete envelope. -/
theorem envelope_roundtrip_witness :
    parseEnvelope (writeHeader ⟨7, 2, 3, [[1, 2, 3, 4, 5, 6, 7, 8]]⟩ ++
        [9, 9, 9] ++ [1, 1, 2, 3, 4, 5, 6, 7, 8]) =
      some ⟨7, 2, 3, [[1, 2, 3, 4, 5, 6, 7, 8]]⟩ :=
  envelope_roundtrip ⟨7, 2, 3, [[1, 2, 3, 4, 5, 6, 7, 8]]⟩ [9, 9, 9]
    [1, 1, 2, 3, 4, 5, 6, 7, 8] (by decide) (by decide) (by decide) (by decide)
    (by decide) (by decide)

/-! ### Hash-algorithm codes — `src/common/signatures.go`

`availableHashes` maps the supported names to `crypto.Hash` values; the
numbers below are the Go `crypto.Hash` constants for those names. -/

/-- The `crypto.Hash` codes of the algorithms listed in `availableHashes`
(SHA224 = 4 … BLAKE2b_512 = 19). -/
def supportedHashCodes : List Nat := [4, 5, 6, 7, 8, 9, 10, 11, 12, 13, 14, 15, 16, 17, 18, 19]

/-- C8 counterexample: a well-formed envelope whose config byte carries hash
code 31 — not a supported algorithm (and not even a defined `crypto.Hash`
value) — parses successfully: `ParseEnvelope` performs no hash-code
validation, contradicting the claim that unknown hash codes are a parse
error. -/
theorem parse_accepts_unknown_hash_counterexample :
    parseEnvelope (EnvelopeMagicBytes ++ [31] ++ putUint64LE 0) =
        some ⟨31, 0, 0, []⟩ ∧ 31 ∉ supportedHashCodes := by
  constructor
  · simp [parseEnvelope, EnvelopeMagicBytes, putUint64LE, readUint64LE, parseKeys]
  · decide

/-- C8 amended: `ParseEnvelope` accepts every 5-bit hash code without
validation; for any config byte, parsing a well-formed envelope succeeds
and returns the code's low 5 bits verbatim as the hash algorithm (unknown
codes are not an error at parse time). -/
theorem parse_never_validates_hash (config : Nat) (_hconfig : config < 256) :
    parseEnvelope (EnvelopeMagicBytes ++ [config] ++ putUint64LE 0) =
      some ⟨config % 32, config / 32, 0, []⟩ := by
  simp [parseEnvelope, EnvelopeMagicBytes, putUint64LE, readUint64LE, parseKeys]

/-- Witness for `parse_never_validates_hash` at config byte 255. -/
theorem parse_never_validates_hash_witness :
    parseEnvelope (EnvelopeMagicBytes ++ [255] ++ putUint64LE 0) =
      some ⟨255 % 32, 255 / 32, 0, []⟩ :=
  parse_never_validates_hash 255 (by decide)

/-! ## Compression selection — `src/common/archive.go`

`WriteArchive.InitializeCompression` and `ReadArchive.InitializeCompression`
select the compression layer from the algorithm index. In both switches,
case 2 (zip) logs a warning and *assigns the underlying writer/reader
unchanged* (`arc.compressWriter = w`, `arc.compressReader = r`): a
pass-through, not a gzip stream. -/

/-- The compression layer wrapped around the underlying writer/reader:
which library constructor the switch selects, or `passthrough` when the
underlying stream is used unchanged. -/
inductive CompressionLayer where
  | gzip
  | zlib
  | passthrough
  | flate
deriving Repr, DecidableEq

/-- Function `WriteArchive.InitializeCompression`: the layer selected for each
index, paired with whether a warning is logged.
Case 1 = zlib, case 2 = warning + pass-through, case 3 = flate,
default = gzip. -/
def writeCompressionLayer (compressionAlgo : Nat) : CompressionLayer × Bool :=
  match compressionAlgo with
  | 1 => (.zlib, false)
  | 2 => (.passthrough, true)
  | 3 => (.flate, false)
  | _ => (.gzip, false)

/-- Function `ReadArchive.InitializeCompression`: same switch on the read path. -/
def readCompressionLayer (compressionAlgo : Nat) : CompressionLayer × Bool :=
  match compressionAlgo with
  | 1 => (.zlib, false)
  | 2 => (.passthrough, true)
  | 3 => (.flate, false)
  | _ => (.gzip, false)

/-- C6 counterexample: compression index 2 does *not* behave like index 0.
On the write path index 2 selects the pass-through layer while index 0
selects the gzip writer (so the archive bytes are the uncompressed stream,
not gzip output), and likewise on the read path: the claim that index 2 is
aliased to gzip is false. -/
theorem zip_not_aliased_to_gzip_counterexample :
    ¬ ((writeCompressionLayer 2).1 = (writeCompressionLayer 0).1 ∧
       (readCompressionLayer 2).1 = (readCompressionLayer 0).1) := by
  decide

/-- C6 amended: for compression index 2 (zip), both paths log a warning and
use the underlying stream unchanged (no compression layer at all): the
write path passes bytes through uncompressed and the read path interprets
an index-2 archive as uncompressed — not as gzip. -/
theorem zip_is_passthrough :
    writeCompressionLayer 2 = (.passthrough, true) ∧
      readCompressionLayer 2 = (.passthrough, true) ∧
      writeCompressionLayer 0 = (.gzip, false) ∧
      readCompressionLayer 0 = (.gzip, false) := by
  decide

/-! ## Image rollback — `src/common/containers.go`, `RemoveAll`

```go
func RemoveAll(tags []*name.Tag) (err error) {
    for _, tag := range tags {
        switch Unseal.TargetRegistry {
        case LocalRegistry:
            client, ctx, err := getContainerDClient()
            if err != nil { return err }
            return client.ImageService().Delete(ctx, tag.Name())
        default:
            return crane.Delete(tag.Name())
        }
    }
    return
}
```

Every branch of the loop body `return`s, so at most the first tag is ever
passed to a delete operation. The per-tag delete is a library/registry
call, modelled as a function argument; `removeAll` returns the list of
tags it attempted to delete together with the result of the call. -/

/-- Function `RemoveAll`, instrumented with the list of tags whose deletion was
attempted. `delete` abstracts the registry/containerd delete call
(`none` = success, `some e` = error). Faithful to the source: the loop
body returns unconditionally in its first iteration. -/
def removeAll {Tag E : Type} (delete : Tag → Option E) (tags : List Tag) :
    List Tag × Option E :=
  match tags with
  | [] => ([], none)
  | tag :: _ => ([tag], delete tag)

/-- C7: evaluation at the failing input. With two recorded tags whose
deletions would both succeed, `RemoveAll` attempts only the first tag and
returns — the second tag is never passed to the delete call, contradicting
the claim that every tag in the list is attempted. -/
theorem removeAll_short_circuits :
    (removeAll (fun _ : Nat => (none : Option Unit)) [10, 20]).1 = [10] ∧
      20 ∉ (removeAll (fun _ : Nat => (none : Option Unit)) [10, 20]).1 := by
  decide

/-! ## Signature ledger — `src/common/signatures.go`

`FileSignatures` is a Go `map[string]string` from entry name to raw hash
bytes (held in a Go string). The map is modelled as an association list in
insertion order whose keys are unique in every reachable state; a map read
of a missing key yields the zero value `""`. Go strings compare and sort
byte-wise; UTF-8 byte order coincides with Lean's `String` order. -/

/-- The ledger: Go `map[string]string`, as an insertion-ordered
association list with unique keys. -/
abbrev FileSignatures := List (String × String)

/-- The entry stored under `name`, if any. -/
def fsFind (f : FileSignatures) (name : String) : Option (String × String) :=
  f.find? (fun p => p.1 == name)

/-- Go map read `(*f)[name]`: the zero value `""` when the key is absent. -/
def fsLookup (f : FileSignatures) (name : String) : String :=
  ((fsFind f name).map Prod.snd).getD ""

/-- Go map write `(*f)[name] = v`: overwrite if present, else add. -/
def fsInsert (f : FileSignatures) (name v : String) : FileSignatures :=
  if (fsFind f name).isSome then
    f.map (fun p => if p.1 == name then (p.1, v) else p)
  else f ++ [(name, v)]

/-- Function `FileSignatures.AddFile`: reset the configured hash, hash the contents,
store the digest under `name`. The hash function (a `crypto.Hash` from the
standard library) is abstracted as the parameter `hashFn`. -/
def addFile {γ : Type} (hashFn : γ → String) (f : FileSignatures) (name : String)
    (contents : γ) : FileSignatures :=
  fsInsert f name (hashFn contents)

/-- The map's key set (`for k := range *f`). -/
def fsKeys (f : FileSignatures) : List String := f.map Prod.fst

/-- Function `FileSignatures.Bytes`: collect the keys, `sort.Strings` them, and emit
`<name>:<hash>\n` for each (`Delimiter = ":"`). -/
def fsBytes (f : FileSignatures) : String :=
  String.join ((List.insertionSort (· ≤ ·) (fsKeys f)).map
    (fun k => k ++ ":" ++ fsLookup f k ++ "\n"))

/-- Function `FileSignatures.Equals`: for each entry of `f`, compare against
`other`'s value for that key (`""` when absent); `other`'s extra entries
are never examined. -/
def fsEquals (f other : FileSignatures) : Bool :=
  f.all (fun p => fsLookup other p.1 == p.2)

/-- Building a ledger by inserting a list of `(name, contents)` entries in
order via `AddFile`. -/
def buildLedger {γ : Type} (hashFn : γ → String) (l : List (String × γ)) :
    FileSignatures :=
  l.foldl (fun f p => addFile hashFn f p.1 p.2) []

/-! ### Ledger lemmas -/

theorem fsFind_eq_none_of_not_mem_keys (f : FileSignatures) (name : String)
    (h : name ∉ fsKeys f) : fsFind f name = none := by
  apply List.find?_eq_none.mpr
  intro p hp
  simp only [beq_eq_false_iff_ne, ne_eq, beq_iff_eq]
  intro hcontra
  exact h (hcontra ▸ List.mem_map_of_mem Prod.fst hp)

theorem fsFind_eq_some_of_mem (f : FileSignatures) (k v : String)
    (hnodup : (fsKeys f).Nodup) (hmem : (k, v) ∈ f) :
    fsFind f k = some (k, v) := by
  induction f with
  | nil => cases hmem
  | cons p t ih =>
    obtain ⟨a, b⟩ := p
    simp only [fsKeys, List.map_cons, List.nodup_cons] at hnodup
    by_cases hak : a = k
    · subst hak
      rcases List.mem_cons.mp hmem with heq | htail
      · rw [fsFind]
        simp [List.find?, heq.symm]
      · exact absurd (List.mem_map_of_mem Prod.fst htail) hnodup.1
    · rcases List.mem_cons.mp hmem with heq | htail
      · cases heq
        exact absurd rfl hak
      · rw [fsFind]
        simp only [List.find?]
        have hbeq : (a == k) = false := by simpa using hak
        rw [hbeq]
        exact ih hnodup.2 htail

theorem fsLookup_eq_of_perm (f g : FileSignatures) (hperm : f.Perm g)
    (hnodup : (fsKeys f).Nodup) (k : String) : fsLookup f k = fsLookup g k := by
  have hkeysperm : (fsKeys f).Perm (fsKeys g) := hperm.map Prod.fst
  have hnodupg : (fsKeys g).Nodup := hkeysperm.nodup_iff.mp hnodup
  by_cases hk : k ∈ fsKeys f
  · obtain ⟨⟨k', v⟩, hpv, hfst⟩ := List.mem_map.mp hk
    simp only at hfst
    subst hfst
    have h1 := fsFind_eq_some_of_mem f k' v hnodup hpv
    have h2 := fsFind_eq_some_of_mem g k' v hnodupg (hperm.mem_iff.mp hpv)
    simp [fsLookup, h1, h2]
  · have h1 := fsFind_eq_none_of_not_mem_keys f k hk
    have h2 := fsFind_eq_none_of_not_mem_keys g k (fun hc => hk (hkeysperm.mem_iff.mpr hc))
    simp [fsLookup, h1, h2]

theorem buildLedger_go {γ : Type} (hashFn : γ → String) :
    ∀ (l : List (String × γ)) (acc : FileSignatures),
      (acc.map Prod.fst ++ l.map Prod.fst).Nodup →
      l.foldl (fun f p => addFile hashFn f p.1 p.2) acc =
        acc ++ l.map (fun p => (p.1, hashFn p.2)) := by
  intro l
  induction l with
  | nil => intro acc _; simp
  | cons p rest ih =>
    intro acc hnodup
    obtain ⟨n, c⟩ := p
    have hn : n ∉ acc.map Prod.fst := by
      rw [List.nodup_append] at hnodup
      exact fun hmem => hnodup.2.2 hmem (by simp)
    have hstep : addFile hashFn acc n c = acc ++ [(n, hashFn c)] := by
      unfold addFile fsInsert
      rw [fsFind_eq_none_of_not_mem_keys acc n hn]
      simp
    simp only [List.foldl_cons]
    rw [hstep, ih (acc ++ [(n, hashFn c)]) (by simpa [List.append_assoc] using hnodup)]
    simp

/-- C4. The canonical ledger bytes are insertion-order independent: for any
two insertion orders of the same finite set of `(name, contents)` pairs
(distinct names), `FileSignatures.Bytes` is byte-identical — it lists the
entries sorted lexicographically by name, one per line as
`<name>:<hash>\n`. -/
theorem fsBytes_insertion_order_independent (hashFn : List Nat → String)
    (l1 l2 : List (String × List Nat)) (hperm : l1.Perm l2)
    (hnodup : (l1.map Prod.fst).Nodup) :
    fsBytes (buildLedger hashFn l1) = fsBytes (buildLedger hashFn l2) := by
  have hnodup2 : (l2.map Prod.fst).Nodup := ((hperm.map Prod.fst).nodup_iff).mp hnodup
  have h1 : buildLedger hashFn l1 = l1.map (fun p => (p.1, hashFn p.2)) := by
    have := buildLedger_go hashFn l1 [] (by simpa using hnodup)
    simpa [buildLedger] using this
  have h2 : buildLedger hashFn l2 = l2.map (fun p => (p.1, hashFn p.2)) := by
    have := buildLedger_go hashFn l2 [] (by simpa using hnodup2)
    simpa [buildLedger] using this
  rw [h1, h2]
  have hfperm : (l1.map fun p => (p.1, hashFn p.2)).Perm
      (l2.map fun p => (p.1, hashFn p.2)) := hperm.map _
  have hf1nodup : (fsKeys (l1.map fun p => (p.1, hashFn p.2))).Nodup := by
    simpa [fsKeys, List.map_map, Function.comp_def] using hnodup
  rw [fsBytes, fsBytes]
  have hkeysperm : (fsKeys (l1.map fun p => (p.1, hashFn p.2))).Perm
      (fsKeys (l2.map fun p => (p.1, hashFn p.2))) := hfperm.map Prod.fst
  have hsorted : List.insertionSort (· ≤ ·) (fsKeys (l1.map fun p => (p.1, hashFn p.2))) =
      List.insertionSort (· ≤ ·) (fsKeys (l2.map fun p => (p.1, hashFn p.2))) := by
    refine List.eq_of_perm_of_sorted ?_
      (List.sorted_insertionSort (· ≤ ·) _) (List.sorted_insertionSort (· ≤ ·) _)
    exact (List.perm_insertionSort _ _).trans
      (hkeysperm.trans (List.perm_insertionSort _ _).symm)
  rw [hsorted]
  congr 1
  apply List.map_congr_left
  intro k _
  rw [fsLookup_eq_of_perm _ _ hfperm hf1nodup k]

/-- Witness for `fsBytes_insertion_order_independent` on two concrete
insertion orders of a two-entry set. -/
theorem fsBytes_insertion_order_independent_witness :
    (([("b", [1]), ("a", [2])] : List (String × List Nat)).Perm
        [("a", [2]), ("b", [1])]) ∧
      fsBytes (buildLedger (fun _ => "x") [("b", [1]), ("a", [2])]) =
        fsBytes (buildLedger (fun _ => "x") [("a", [2]), ("b", [1])]) :=
  ⟨List.Perm.swap _ _ _,
   fsBytes_insertion_order_independent (fun _ => "x") _ _ (List.Perm.swap _ _ _)
     (by decide)⟩

/-- C5 counterexample: `FileSignatures.Equals` is not an order-independent
equality of the two maps. The empty ledger compared against a one-entry
ledger yields `true` (the loop over `f`'s entries is vacuous), although
the two ledgers do not contain the same name-to-hash pairs. -/
theorem fsEquals_not_equality_counterexample :
    ¬ ((fsEquals [] [("a", "h")] = true) ↔
       (∀ p : String × String, p ∈ ([] : FileSignatures) ↔ p ∈ [("a", "h")])) := by
  intro h
  have h2 := (h.mp rfl) ("a", "h")
  simp at h2

/-- C5 amended: `f.Equals(other)` returns true iff every name recorded in
`f` has the same hash in `other` (a name absent from `other` compares as
the zero value `""`); it checks only containment of `f`'s entries in
`other` and is not a symmetric comparison. -/
theorem fsEquals_iff_contained (f g : FileSignatures) (hf : (fsKeys f).Nodup) :
    fsEquals f g = true ↔ ∀ k ∈ fsKeys f, fsLookup g k = fsLookup f k := by
  rw [fsEquals, List.all_eq_true]
  constructor
  · intro h k hk
    obtain ⟨⟨k', v⟩, hpv, hfst⟩ := List.mem_map.mp hk
    simp only at hfst
    subst hfst
    have hfk : fsLookup f k' = v := by
      simp [fsLookup, fsFind_eq_some_of_mem f k' v hf hpv]
    rw [hfk]
    simpa using h _ hpv
  · intro h p hp
    obtain ⟨k, v⟩ := p
    have hk : k ∈ fsKeys f := List.mem_map_of_mem Prod.fst hp
    have hfk : fsLookup f k = v := by
      simp [fsLookup, fsFind_eq_some_of_mem f k v hf hp]
    simpa [hfk] using h k hk

/-- Witness for `fsEquals_iff_contained` on concrete ledgers where `f` is a
strict sub-map of `g`. -/
theorem fsEquals_iff_contained_witness :
    fsEquals [("a", "h")] [("a", "h"), ("b", "i")] = true ↔
      ∀ k ∈ fsKeys [("a", "h")],
        fsLookup [("a", "h"), ("b", "i")] k = fsLookup [("a", "h")] k :=
  fsEquals_iff_contained _ _ (by decide)

/-! ## Verifier — `src/internal/verifier.go` and `ReadArchive.Unpack`

The verifier holds two `*bytes.Buffer` fields that stay `nil` until a
matching tar entry is routed to `AddTocComponent`; they are modelled as
`Option String` (Go byte strings). The sigstore signature verifier is an
external capability, abstracted as a boolean function of the signature
and message bytes. Calling a method on a `nil` `*bytes.Buffer`
(`v.toc.Bytes()`, or reading from `v.tocSignature`) dereferences a nil
pointer and panics at runtime; the model makes that outcome explicit as
`nilPanic`. -/

/-- The constant `TocFileName = ".sealpack.toc"`. -/
def TocFileName : String := ".sealpack.toc"

/-- The verifier's mutable state: TOC buffer, TOC-signature buffer and the
locally computed ledger (`Signatures`). `none` models a nil buffer. -/
structure VerifierState where
  toc : Option String
  tocSignature : Option String
  Signatures : FileSignatures

/-- Outcome of `Verifier.Verify`. -/
inductive VerifyResult where
  | ok
  | tocMismatch
  | signatureInvalid
  | nilPanic
deriving Repr, DecidableEq

/-- Function `Verifier.Verify`: compare the received TOC bytes against the ledger's
canonical bytes (`bytes.Compare != 0` → "tocs not matching"), then verify
the TOC signature over those bytes; rollback happens on signature failure
but does not change the returned error. A nil TOC or TOC-signature buffer
is dereferenced and the call panics. -/
def verify (verifySig : String → String → Bool) (v : VerifierState) : VerifyResult :=
  match v.toc with
  | none => .nilPanic
  | some t =>
    if t ≠ fsBytes v.Signatures then .tocMismatch
    else
      match v.tocSignature with
      | none => .nilPanic
      | some s => if verifySig s t then .ok else .signatureInvalid

/-- A regular tar entry: its name and its streamed content bytes
(Go byte string). -/
structure TarEntry where
  name : String
  content : String

/-- Function `Verifier.AddTocComponent`: route an entry into the TOC buffer when the
name is exactly `.sealpack.toc`, else into the TOC-signature buffer. -/
def addTocComponent (v : VerifierState) (name content : String) : VerifierState :=
  if name = TocFileName then { v with toc := some content }
  else { v with tocSignature := some content }

/-- Function `ReadArchive.extract`: entries whose name begins with `.sealpack.toc`
go to `AddTocComponent`; every other entry is extracted while its bytes
are simultaneously hashed into the ledger (`AddFileFromReader`). -/
def processEntry (hashFn : String → String) (v : VerifierState) (e : TarEntry) :
    VerifierState :=
  if TocFileName.isPrefixOf e.name then addTocComponent v e.name e.content
  else { v with Signatures := addFile hashFn v.Signatures e.name e.content }

/-- Function `ReadArchive.Unpack`: start from a fresh verifier (nil buffers, empty
ledger), process every regular entry, then run `Verifier.Verify`. -/
def unpack (hashFn : String → String) (verifySig : String → String → Bool)
    (entries : List TarEntry) : VerifyResult :=
  verify verifySig (entries.foldl (processEntry hashFn) ⟨none, none, []⟩)

/-! ### Verifier lemmas -/

/-- C2. In every verifier state in which both buffers were received,
`Verify` returns success iff the received TOC equals the ledger's
canonical bytes and the signature verifies over the received TOC bytes;
on TOC mismatch it returns the TOC-mismatch error, and on signature
failure the signature-verification error. -/
theorem verify_ok_iff (verifySig : String → String → Bool) (v : VerifierState)
    (t s : String) (htoc : v.toc = some t) (hsig : v.tocSignature = some s) :
    (verify verifySig v = .ok ↔
        t = fsBytes v.Signatures ∧ verifySig s t = true) ∧
      (t ≠ fsBytes v.Signatures → verify verifySig v = .tocMismatch) ∧
      (t = fsBytes v.Signatures → verifySig s t = false →
        verify verifySig v = .signatureInvalid) := by
  simp only [verify, htoc, hsig]
  by_cases hm : t = fsBytes v.Signatures
  · cases hvs : verifySig s t <;> simp [hm, hvs]
  · simp [hm]

/-- Witness for `verify_ok_iff` on a concrete state: empty ledger, received
TOC equal to its canonical bytes, and an accepting signature verifier. -/
theorem verify_ok_iff_witness :
    (verify (fun _ _ => true) ⟨some (fsBytes []), some "sig", []⟩ = .ok ↔
        fsBytes ([] : FileSignatures) = fsBytes ([] : FileSignatures) ∧
          (fun (_ _ : String) => true) "sig" (fsBytes ([] : FileSignatures)) = true) ∧
      (fsBytes ([] : FileSignatures) ≠ fsBytes ([] : FileSignatures) →
        verify (fun _ _ => true) ⟨some (fsBytes []), some "sig", []⟩ = .tocMismatch) ∧
      (fsBytes ([] : FileSignatures) = fsBytes ([] : FileSignatures) →
        (fun (_ _ : String) => true) "sig" (fsBytes ([] : FileSignatures)) = false →
        verify (fun _ _ => true) ⟨some (fsBytes []), some "sig", []⟩ = .signatureInvalid) :=
  verify_ok_iff (fun _ _ => true) ⟨some (fsBytes []), some "sig", []⟩
    (fsBytes []) "sig" rfl rfl

theorem foldl_processEntry_toc (hashFn : String → String) :
    ∀ (entries : List TarEntry) (v : VerifierState),
      (∀ e ∈ entries, e.name ≠ TocFileName) →
      (entries.foldl (processEntry hashFn) v).toc = v.toc := by
  intro entries
  induction entries with
  | nil => intro v _; rfl
  | cons e rest ih =>
    intro v hne
    rw [List.foldl_cons]
    rw [ih _ (fun x hx => hne x (by simp [hx]))]
    unfold processEntry addTocComponent
    by_cases hp : TocFileName.isPrefixOf e.name
    · rw [if_pos hp, if_neg (hne e (by simp))]
    · rw [if_neg hp]

theorem foldl_processEntry_tocSignature (hashFn : String → String) :
    ∀ (entries : List TarEntry) (v : VerifierState),
      (∀ e ∈ entries, ¬(TocFileName.isPrefixOf e.name ∧ e.name ≠ TocFileName)) →
      (entries.foldl (processEntry hashFn) v).tocSignature = v.tocSignature := by
  intro entries
  induction entries with
  | nil => intro v _; rfl
  | cons e rest ih =>
    intro v hne
    rw [List.foldl_cons]
    rw [ih _ (fun x hx => hne x (by simp [hx]))]
    unfold processEntry addTocComponent
    by_cases hp : TocFileName.isPrefixOf e.name
    · rw [if_pos hp]
      have : e.name = TocFileName := by
        by_contra hc
        exact hne e (by simp) ⟨hp, hc⟩
      rw [if_pos this]
    · rw [if_neg hp]

/-- C10. If the decoded tar stream contains no entry named exactly
`.sealpack.toc`, the TOC buffer stays nil and `Unpack`'s final
`Verifier.Verify` dereferences the nil buffer and panics instead of
returning an error; respectively, if no entry routes to the signature
buffer it stays nil, and a verify that reaches the signature check with a
nil signature buffer panics as well. -/
theorem unpack_toc_missing_panics (hashFn : String → String)
    (verifySig : String → String → Bool) (entries : List TarEntry) :
    ((∀ e ∈ entries, e.name ≠ TocFileName) →
        (entries.foldl (processEntry hashFn) ⟨none, none, []⟩).toc = none ∧
          unpack hashFn verifySig entries = .nilPanic) ∧
      ((∀ e ∈ entries, ¬(TocFileName.isPrefixOf e.name ∧ e.name ≠ TocFileName)) →
        (entries.foldl (processEntry hashFn) ⟨none, none, []⟩).tocSignature = none) ∧
      (∀ v : VerifierState, v.tocSignature = none →
        v.toc = some (fsBytes v.Signatures) → verify verifySig v = .nilPanic) := by
  refine ⟨fun hne => ?_, fun hne => ?_, fun v hsig htoc => ?_⟩
  · have htoc := foldl_processEntry_toc hashFn entries ⟨none, none, []⟩ hne
    refine ⟨htoc, ?_⟩
    rw [unpack]
    simp only [verify, htoc]
  · exact foldl_processEntry_tocSignature hashFn entries ⟨none, none, []⟩ hne
  · simp only [verify, htoc, hsig]
    simp

/-- Witness for `unpack_toc_missing_panics`: an archive with a single
ordinary file entry and no TOC crashes rather than failing verification. -/
theorem unpack_toc_missing_panics_witness :
    unpack (fun _ => "h") (fun _ _ => true) [⟨"hello.txt", "data"⟩] = .nilPanic :=
  ((unpack_toc_missing_panics (fun _ => "h") (fun _ _ => true)
      [⟨"hello.txt", "data"⟩]).1 (by decide)).2

/-! ## Payload unsealing — `Envelope.GetPayload`, `src/common/archive.go`

For a sealed archive (non-empty receiver-key list), `GetPayload` loads the
private key from `Unseal.PrivKeyPath`, then loops over the sealed keys
calling `TryUnsealKey`: an error only moves the loop to the next key, and
the loop breaks on the first success. If no key unsealed (`symKey == nil`)
the error "not sealed for the provided private key" is returned; otherwise
the payload decrypter is built from the unsealed key. The private-key
loader and `TryUnsealKey` are crypto-library calls abstracted as
parameters (the type `ρ` of private keys and `κ` of symmetric keys are
abstract). -/

/-- What `GetPayload` returns: the raw payload reader for a public archive,
or a `symmecrypt` decrypting reader built from the unsealed symmetric key. -/
inductive PayloadSource (κ : Type) where
  | publicPayload
  | decryptedPayload (symKey : κ)
deriving Repr, DecidableEq

/-- Errors of `GetPayload` (payload-reader construction aside). -/
inductive GetPayloadError where
  | loadKeyError
  | notForThisKey
deriving Repr, DecidableEq

/-- The key-hunt loop: `TryUnsealKey` on each sealed key in trailer order;
an error leaves `symKey` nil and continues; the loop breaks on the first
success. -/
def firstUnsealed {κ : Type} (tryUnseal : List Nat → Option κ) :
    List (List Nat) → Option κ
  | [] => none
  | k :: rest =>
    match tryUnseal k with
    | some s => some s
    | none => firstUnsealed tryUnseal rest

/-- Function `Envelope.GetPayload`. -/
def getPayload {ρ κ : Type} (loadKey : Option ρ)
    (tryUnseal : List Nat → ρ → Option κ) (keys : List (List Nat)) :
    Except GetPayloadError (PayloadSource κ) :=
  if keys.length < 1 then .ok .publicPayload
  else
    match loadKey with
    | none => .error .loadKeyError
    | some pk =>
      match firstUnsealed (fun k => tryUnseal k pk) keys with
      | none => .error .notForThisKey
      | some s => .ok (.decryptedPayload s)

/-! ### Key-hunt lemmas -/

theorem firstUnsealed_eq_none_iff {κ : Type} (tryUnseal : List Nat → Option κ)
    (keys : List (List Nat)) :
    firstUnsealed tryUnseal keys = none ↔ ∀ k ∈ keys, tryUnseal k = none := by
  induction keys with
  | nil => simp [firstUnsealed]
  | cons k rest ih =>
    rw [firstUnsealed]
    cases hk : tryUnseal k with
    | none => simpa [hk] using ih
    | some s => simp [hk]

theorem firstUnsealed_first_success {κ : Type} (tryUnseal : List Nat → Option κ) :
    ∀ (pre : List (List Nat)) (k : List Nat) (post : List (List Nat)) (s : κ),
      (∀ k' ∈ pre, tryUnseal k' = none) → tryUnseal k = some s →
      firstUnsealed tryUnseal (pre ++ k :: post) = some s := by
  intro pre
  induction pre with
  | nil =>
    intro k post s _ hk
    simp [firstUnsealed, hk]
  | cons p rest ih =>
    intro k post s hpre hk
    rw [List.cons_append, firstUnsealed, hpre p (by simp)]
    exact ih k post s (fun k' hk' => hpre k' (by simp [hk'])) hk

/-- C9. Key hunt during unseal of a sealed archive: the sealed keys are
tried in trailer order with the provided private key, an unseal error is
caught inside the loop so later keys are still tried, the payload
decrypter is built from the first key that unseals, and `GetPayload`
fails with the not-for-this-key error iff no sealed key can be unsealed. -/
theorem getPayload_key_hunt {ρ κ : Type} (pk : ρ)
    (tryUnseal : List Nat → ρ → Option κ) (keys : List (List Nat))
    (hne : keys ≠ []) :
    (getPayload (some pk) tryUnseal keys = .error .notForThisKey ↔
        ∀ k ∈ keys, tryUnseal k pk = none) ∧
      (∀ (pre : List (List Nat)) (k : List Nat) (post : List (List Nat)) (s : κ),
        keys = pre ++ k :: post → (∀ k' ∈ pre, tryUnseal k' pk = none) →
        tryUnseal k pk = some s →
        getPayload (some pk) tryUnseal keys = .ok (.decryptedPayload s)) := by
  have hlen : ¬ keys.length < 1 := by
    cases keys with
    | nil => exact absurd rfl hne
    | cons a b => simp
  constructor
  · rw [getPayload, if_neg hlen]
    cases hfu : firstUnsealed (fun k => tryUnseal k pk) keys with
    | none =>
      simpa [hfu] using (firstUnsealed_eq_none_iff (fun k => tryUnseal k pk) keys).mp hfu
    | some s =>
      constructor
      · intro h
        simp [hfu] at h
      · intro hall
        rw [(firstUnsealed_eq_none_iff (fun k => tryUnseal k pk) keys).mpr hall] at hfu
        cases hfu
  · intro pre k post s hsplit hpre hk
    rw [getPayload, if_neg hlen, hsplit,
      firstUnsealed_first_success (fun k => tryUnseal k pk) pre k post s hpre hk]

/-- Witness for `getPayload_key_hunt`: two sealed keys, only the second
unseals; the first key's failure is skipped and the decrypter uses the
second key's result. -/
theorem getPayload_key_hunt_witness :
    (getPayload (some 0) (fun k (_ : Nat) => if k = [2] then some 7 else none)
          [[1], [2]] = .error .notForThisKey ↔
        ∀ k ∈ [[1], [2]], (fun k (_ : Nat) => if k = [2] then some 7 else none) k 0 = none) ∧
      (∀ (pre : List (List Nat)) (k : List Nat) (post : List (List Nat)) (s : Nat),
        [[1], [2]] = pre ++ k :: post →
        (∀ k' ∈ pre, (fun k (_ : Nat) => if k = [2] then some 7 else none) k' 0 = none) →
        (fun k (_ : Nat) => if k = [2] then some 7 else none) k 0 = some s →
        getPayload (some 0) (fun k (_ : Nat) => if k = [2] then some 7 else none)
          [[1], [2]] = .ok (.decryptedPayload s)) :=
  getPayload_key_hunt 0 (fun k (_ : Nat) => if k = [2] then some 7 else none)
    [[1], [2]] (by decide)

/-! ## Recipient-key sealing — `src/internal/crypto.go`

`AddKeys` iterates recipients in order; for each it encrypts the symmetric
key with `rsa.EncryptPKCS1v15` and requires the ciphertext length to equal
the RSA key's size. `TryUnsealKey` decrypts with `rsa.DecryptPKCS1v15`
and, on success, passes the plaintext to `symmecrypt.NewKey`. The Go
`crypto/rsa` primitives are abstracted as functions taking the padding
scheme as an explicit argument, so that which scheme the code invokes is
visible in the model. -/

/-- RSA padding schemes relevant here: PKCS#1 v1.5 (what
`rsa.EncryptPKCS1v15`/`rsa.DecryptPKCS1v15` implement) and OAEP-SHA-256. -/
inductive RsaScheme where
  | pkcs1v15
  | oaepSha256
deriving Repr, DecidableEq

/-- A loaded RSA public key, exposing `key.Size()` (modulus size in
bytes). -/
structure RsaPubKey where
  size : Nat
deriving Repr, DecidableEq

/-- Function `AddKeys` over recipients whose public keys loaded as RSA keys: seal
the plain symmetric key for each recipient with `rsa.EncryptPKCS1v15`,
failing if the ciphertext length differs from `key.Size()`. -/
def addKeys (rsaEncrypt : RsaScheme → RsaPubKey → List Nat → List Nat) :
    List RsaPubKey → List Nat → Option (List (List Nat))
  | [], _ => some []
  | k :: rest, plainKey =>
    let ct := rsaEncrypt .pkcs1v15 k plainKey
    if ct.length ≠ k.size then none
    else (addKeys rsaEncrypt rest plainKey).map (ct :: ·)

/-- Function `TryUnsealKey`: decrypt the sealed key with `rsa.DecryptPKCS1v15`
(the decrypter closes over the private key) and pass the plaintext to the
symmetric-cipher constructor `symmecrypt.NewKey`. -/
def tryUnsealKey {κ : Type} (rsaDecrypt : RsaScheme → List Nat → Option (List Nat))
    (newSymKey : List Nat → Option κ) (encrypted : List Nat) : Option κ :=
  (rsaDecrypt .pkcs1v15 encrypted).bind newSymKey

/-- C3 counterexample: under an RSA semantics in which the two padding
schemes produce different ciphertexts/plaintexts, the sealed key appended
by `AddKeys` is the PKCS#1 v1.5 ciphertext and differs from the
RSA-OAEP-SHA-256 ciphertext, and `TryUnsealKey` feeds the PKCS#1 v1.5
plaintext — not the OAEP plaintext — to the symmetric-cipher constructor:
the claim that local-key sealing/unsealing uses RSA-OAEP-SHA-256 is false. -/
theorem addKeys_pkcs1v15_counterexample :
    addKeys (fun s _ m => (if s = RsaScheme.oaepSha256 then 1 else 0) :: m)
        [⟨3⟩] [9, 9] = some [[0, 9, 9]] ∧
      (fun (s : RsaScheme) (_ : RsaPubKey) (m : List Nat) =>
          (if s = RsaScheme.oaepSha256 then 1 else 0) :: m)
        RsaScheme.oaepSha256 ⟨3⟩ [9, 9] = [1, 9, 9] ∧
      ([0, 9, 9] : List Nat) ≠ [1, 9, 9] ∧
      tryUnsealKey (fun s _ => if s = RsaScheme.oaepSha256 then some [1] else some [0])
        some [5] = some [0] ∧ some [0] ≠ some ([1] : List Nat) := by
  refine ⟨?_, by decide, by decide, ?_, by decide⟩
  · rfl
  · rfl

/-- C3 amended: for every recipient with a local RSA key, the sealed key
appended to the trailer is the symmetric key encrypted with the
recipient's RSA public key using RSA **PKCS#1 v1.5** (its length checked
against the key size), and `TryUnsealKey` decrypts with PKCS#1 v1.5
before passing the plaintext to the symmetric-cipher constructor (only
the KMS path uses RSAES-OAEP-SHA-256). -/
theorem sealing_uses_pkcs1v15 {κ : Type}
    (rsaEncrypt : RsaScheme → RsaPubKey → List Nat → List Nat)
    (rsaDecrypt : RsaScheme → List Nat → Option (List Nat))
    (newSymKey : List Nat → Option κ)
    (recips : List RsaPubKey) (plainKey : List Nat) (out : List (List Nat))
    (h : addKeys rsaEncrypt recips plainKey = some out) :
    out = recips.map (fun k => rsaEncrypt .pkcs1v15 k plainKey) ∧
      (∀ k ∈ recips, (rsaEncrypt .pkcs1v15 k plainKey).length = k.size) ∧
      (∀ ct, tryUnsealKey rsaDecrypt newSymKey ct =
        (rsaDecrypt .pkcs1v15 ct).bind newSymKey) := by
  refine ⟨?_, ?_, fun ct => rfl⟩
  · induction recips generalizing out with
    | nil =>
      simp only [addKeys, Option.some.injEq] at h
      simp [h.symm]
    | cons k rest ih =>
      rw [addKeys] at h
      by_cases hlen : (rsaEncrypt .pkcs1v15 k plainKey).length ≠ k.size
      · rw [if_pos hlen] at h
        cases h
      · rw [if_neg hlen] at h
        obtain ⟨tail, htail, hout⟩ := Option.map_eq_some'.mp h
        subst hout
        simp [ih tail htail]
  · induction recips generalizing out with
    | nil => simp
    | cons k rest ih =>
      rw [addKeys] at h
      by_cases hlen : (rsaEncrypt .pkcs1v15 k plainKey).length ≠ k.size
      · rw [if_pos hlen] at h
        cases h
      · rw [if_neg hlen] at h
        obtain ⟨tail, htail, hout⟩ := Option.map_eq_some'.mp h
        intro k' hk'
        rcases List.mem_cons.mp hk' with heq | hmem
        · subst heq
          omega
        · exact ih tail htail k' hmem

/-- Witness for `sealing_uses_pkcs1v15` at a concrete encryption semantics
and recipient list. -/
theorem sealing_uses_pkcs1v15_witness :
    ([[0, 9, 9]] : List (List Nat)) =
        [⟨3⟩].map (fun k : RsaPubKey =>
          (fun (s : RsaScheme) (_ : RsaPubKey) (m : List Nat) =>
            (if s = RsaScheme.oaepSha256 then 1 else 0) :: m) .pkcs1v15 k [9, 9]) ∧
      (∀ k ∈ ([⟨3⟩] : List RsaPubKey),
        ((fun (s : RsaScheme) (_ : RsaPubKey) (m : List Nat) =>
          (if s = RsaScheme.oaepSha256 then 1 else 0) :: m) .pkcs1v15 k [9, 9]).length = k.size) ∧
      (∀ ct, tryUnsealKey (fun _ _ => (none : Option (List Nat)))
          (fun _ => (none : Option Nat)) ct =
        ((fun (_ : RsaScheme) (_ : List Nat) => (none : Option (List Nat)))
          .pkcs1v15 ct).bind (fun _ => (none : Option Nat))) :=
  sealing_uses_pkcs1v15
    (fun s _ m => (if s = RsaScheme.oaepSha256 then 1 else 0) :: m)
    (fun _ _ => none) (fun _ => none) [⟨3⟩] [9, 9] [[0, 9, 9]] rfl

end Sealpack
